import Mathlib

/-!
Shallow embedding of the Coursera course-catalog scraper
(src/coursera/coursera_scraper.js) and proofs about its field extractor,
record builder, scroll-convergence loop and CSV exporter.

JavaScript strings are modelled as Lean `String`s (lists of characters);
an absent (`undefined`) argument is modelled as `none` of `Option String`.
The JS string primitives used by the source (`trim`, `split`, `startsWith`,
`slice`, `replace`, `includes`, `toLowerCase`) are defined below over
`List Char`, following their JS semantics at the call sites.
-/

set_option maxRecDepth 40000

namespace Scraper

/-- The whitespace characters relevant to `String.prototype.trim` in this
pipeline (the ASCII whitespace set). -/
def jsWs (c : Char) : Bool :=
  c = ' ' || c = '\t' || c = '\n' || c = '\r'

/-- Drop leading and trailing whitespace from a character list. -/
def trimList (l : List Char) : List Char :=
  ((l.dropWhile jsWs).reverse.dropWhile jsWs).reverse

/-- Model of `text.trim()`. -/
def jsTrim (s : String) : String := ⟨trimList s.data⟩

/-- Helper for `splitComma`: accumulates the current field (reversed). -/
def splitCommaAux : List Char → List Char → List String
  | [], acc => [⟨acc.reverse⟩]
  | ',' :: rest, acc => (⟨acc.reverse⟩ : String) :: splitCommaAux rest []
  | c :: rest, acc => splitCommaAux rest (c :: acc)

/-- Model of `text.split(',')`. -/
def splitComma (s : String) : List String := splitCommaAux s.data []

/-- Model of `metadataText.split(' Â· ')`: the separator literal in the
source is the four characters space, U+00C2, U+00B7, space (a mojibake
rendering of a middle dot), split non-overlapping and left to right. -/
def splitSepAux : List Char → List Char → List String
  | ' ' :: 'Â' :: '·' :: ' ' :: rest, acc => (⟨acc.reverse⟩ : String) :: splitSepAux rest []
  | c :: rest, acc => splitSepAux rest (c :: acc)
  | [], acc => [⟨acc.reverse⟩]

/-- Model of `extractMetadata` (src/coursera/coursera_scraper.js lines
6-13). `none` models an absent argument; the falsy guard `!metadataText`
is also taken by the empty string. `parts[i] || ''` is `getD i ""` (an
out-of-range index is `undefined`, and the empty string maps to itself). -/
def extractMetadata : Option String → String × String × String
  | none => ("", "", "")
  | some s =>
    if s = "" then ("", "", "")
    else
      let parts := splitSepAux s.data []
      (parts.getD 0 "", parts.getD 1 "", parts.getD 2 "")

/-- Decimal value of a digit run, as `parseInt(text, 10)` computes it. -/
def natOfDigits (l : List Char) : Nat :=
  l.foldl (fun acc c => 10 * acc + (c.toNat - 48)) 0

/-- Maximal leading digit run of a character list, with the remainder. -/
def takeDigits : List Char → List Char × List Char
  | [] => ([], [])
  | c :: rest =>
    if c.isDigit then
      let p := takeDigits rest
      (c :: p.1, p.2)
    else ([], c :: rest)

/-- The regex alternative `(\d+(?:\.\d+)?)(K|M)` tried at the head of `l`:
integer digits, fraction digits (possibly empty) and the unit character.
The greedy fraction is tried first; if the unit fails after it, the
engine backtracks to the fraction-less alternative, whose unit test then
reads the dot and fails as well — exactly the JS backtracking order.
Shorter digit runs never help, because the character after a shortened
run is another digit, so only the maximal runs are consulted. -/
def matchKMAt (l : List Char) : Option (List Char × List Char × Char) :=
  let p := takeDigits l
  if p.1.isEmpty then none
  else
    match p.2 with
    | [] => none
    | c :: r2 =>
      if c = '.' then
        let q := takeDigits r2
        if q.1.isEmpty then none
        else
          match q.2 with
          | [] => none
          | d :: _ =>
            if d = 'K' then some (p.1, q.1, 'K')
            else if d = 'M' then some (p.1, q.1, 'M')
            else none
      else if c = 'K' then some (p.1, [], 'K')
      else if c = 'M' then some (p.1, [], 'M')
      else none

/-- Leftmost match of `(\d+(?:\.\d+)?)(K|M)`: try each start position in
turn, as the regex engine scans the subject. -/
def findKM : List Char → Option (List Char × List Char × Char)
  | [] => none
  | c :: rest =>
    match matchKMAt (c :: rest) with
    | some m => some m
    | none => findKM rest

/-- Leftmost match of `(\d+)`: the first maximal digit run. -/
def firstDigits : List Char → Option (List Char)
  | [] => none
  | c :: rest => if c.isDigit then some (takeDigits (c :: rest)).1 else firstDigits rest

/-- Exact-arithmetic idealization of `convertReviewsToNumeric` (src
lines 15-27), used by the record-builder model: `parseFloat` on the
matched literal `I.F` is read as the exact rational
`digits(I ++ F) / 10 ^ |F|` and the scaling and floor as exact Nat
arithmetic. This fixes which text is parsed and that the result is a
non-negative integer; the binary64-faithful model of the same source
lines is `convertReviewsToNumericFP` below, and the two differ where
the double roundings cross an integer boundary. `none` models an absent
argument and the falsy guard is also taken by the empty string. -/
def convertReviewsToNumeric : Option String → Nat
  | none => 0
  | some s =>
    if s = "" then 0
    else
      match findKM s.data with
      | some (I, F, u) =>
        let scale := if u = 'K' then 1000 else 1000000
        natOfDigits (I ++ F) * scale / 10 ^ F.length
      | none =>
        match firstDigits s.data with
        | some d => natOfDigits d
        | none => 0

/-- A non-negative IEEE-754 binary64 value: `fin m Q` denotes the real
number m * 2 ^ (Q - 1074), where m is the significand scaled to the
rounding step of its binade, and `inf` is the infinity produced by
overflow. -/
inductive JSNum where
  | fin (m Q : Nat)
  | inf
deriving DecidableEq, Repr

/-- Does 2 ^ (B - 1075) ≤ n / d hold? `B` is the binary exponent
shifted by 1075, so the whole binary64 range, subnormals included,
lies at B ≥ 0; the predicate is antitone in B. -/
def pow2LE (n d B : Nat) : Bool := d * 2 ^ B ≤ n * 2 ^ 1075

/-- Binary search for the largest B below 2099 satisfying
`pow2LE n d`; returns 0 when no B satisfies it (a value below the
smallest subnormal step, which still rounds correctly below). -/
def findBAux (n d : Nat) : Nat → Nat → Nat → Nat
  | 0, lo, _ => lo
  | fuel + 1, lo, hi =>
    if hi ≤ lo + 1 then lo
    else
      let mid := (lo + hi) / 2
      if pow2LE n d mid then findBAux n d fuel mid hi else findBAux n d fuel lo mid

/-- The shifted binary exponent of n / d, clamped to the binary64
range. -/
def findB (n d : Nat) : Nat := findBAux n d 16 0 2099

/-- Round the non-negative rational n / d (d > 0) to the nearest
binary64 value, ties to even, overflowing to infinity: the shifted
exponent fixes the rounding step 2 ^ (Q - 1074) (Q = 0 is the
subnormal step 2 ^ -1074), the scaled significand is rounded
half-to-even, and a result reaching 2 ^ 1024 becomes infinity, as
IEEE 754 round-to-nearest prescribes. -/
def roundDouble (n d : Nat) : JSNum :=
  if n = 0 then .fin 0 0
  else
    let B := findB n d
    let Q := if 53 ≤ B then B - 53 else 0
    let N := n * 2 ^ 1074
    let D := d * 2 ^ Q
    let m0 := N / D
    let r := N - m0 * D
    let m :=
      if 2 * r < D then m0
      else if D < 2 * r then m0 + 1
      else if m0 % 2 = 0 then m0 else m0 + 1
    if 2 ^ 2098 ≤ m * 2 ^ Q then .inf else .fin m Q

/-- IEEE-754 multiplication of a binary64 value by an exactly
representable natural scale factor (1000 and 1000000 here): the exact
product, rounded once. -/
def mulD : JSNum → Nat → JSNum
  | .inf, _ => .inf
  | .fin m Q, k => roundDouble (m * k * 2 ^ Q) (2 ^ 1074)

/-- `Math.floor` on a non-negative binary64 value: exact truncation;
infinity stays infinity (`none`). -/
def floorD : JSNum → Option Nat
  | .inf => none
  | .fin m Q => some (m * 2 ^ Q / 2 ^ 1074)

/-- `parseFloat` on the matched decimal literal `I.F`: the exact
rational value, correctly rounded to binary64 (the behavior of the
major engines). -/
def parseFloatD (I F : List Char) : JSNum :=
  roundDouble (natOfDigits (I ++ F)) (10 ^ F.length)

/-- `parseInt(text, 10)` on a digit run: the exact integer value,
rounded to binary64 (exact only below 2 ^ 53). -/
def parseIntD (dg : List Char) : JSNum :=
  roundDouble (natOfDigits dg) 1

/-- Model of `convertReviewsToNumeric` (src lines 15-27) with the
source's IEEE-754 binary64 arithmetic: `Math.floor(parseFloat(m) *
scale)` rounds the decimal literal to the nearest double, rounds the
product again, then floors; the fallback returns the value of
`parseInt(digits, 10)`. `some n` is a finite integer result; `none` is
an Infinity result, reachable only for digit runs of more than about
300 digits. -/
def convertReviewsToNumericFP : Option String → Option Nat
  | none => some 0
  | some s =>
    if s = "" then some 0
    else
      match findKM s.data with
      | some (I, F, u) =>
        let scale := if u = 'K' then 1000 else 1000000
        floorD (mulD (parseFloatD I F) scale)
      | none =>
        match firstDigits s.data with
        | some dg => floorD (parseIntD dg)
        | none => some 0

/-- The apostrophe character, kept out of string literals. -/
def apos : Char := Char.ofNat 39

/-- The fixed label `Skills you'll gain:` checked by `cleanSkills`. -/
def skillsLabel : List Char := "Skills you".data ++ apos :: "ll gain:".data

/-- The same label with a trailing space, the pattern of the `replace`
call in `extractCourseInfo`. -/
def skillsLabelSp : List Char := skillsLabel ++ [' ']

/-- Model of `cleanSkills` (src lines 29-34) on a string argument:
`startsWith` on the fixed label, then `slice(label.length).trim()` or a
bare `trim()`. -/
def cleanSkills (s : String) : String :=
  if skillsLabel.isPrefixOf s.data then jsTrim ⟨s.data.drop skillsLabel.length⟩
  else jsTrim s

/-- Model of `cleanSkills` on a possibly-absent argument: the source
immediately calls `skillsText.startsWith(...)`, so an `undefined`
argument throws a TypeError, modelled as `none`. -/
def cleanSkillsJS : Option String → Option String
  | none => none
  | some s => some (cleanSkills s)

/-- Model of `text.toLowerCase()` (per-character lowering suffices for
the call sites, which test for the ASCII word `reviews`). -/
def jsToLower (s : String) : String := ⟨s.data.map Char.toLower⟩

/-- Model of `text.includes(needle)`: substring containment. -/
def containsSub (needle : List Char) : List Char → Bool
  | [] => needle.isEmpty
  | c :: rest => needle.isPrefixOf (c :: rest) || containsSub needle rest

/-- Model of `text.replace(pat, '')` with a string pattern: JS `replace`
rewrites only the first occurrence, and the replacement at the single
call site is the empty string. -/
def replaceOnceEmpty (pat : List Char) : List Char → List Char
  | [] => []
  | c :: rest =>
    if pat.isPrefixOf (c :: rest) then (c :: rest).drop pat.length
    else c :: replaceOnceEmpty pat rest

/-- One course card as the record builder inspects it (src lines 41-108):
the text of each sub-element the code looks up. Where the code tests
`.length` on a selection, the field is an `Option` and `none` means the
selector matched nothing; where it only calls `.text()`, an absent
element already yields the empty string, so a plain `String` suffices. -/
structure Card where
  titleText : String
  partnerText : String
  ratingText : Option String
  ratingNext : Option String
  skillsP : Option String
  metadataP : Option String
  href : Option String
  hasPlus : Bool
  degreeText : Option String
deriving DecidableEq, Repr

/-- One extracted CourseRecord, with the fields in the order the code
assigns them. `reviews` is the parsed count; `skills` is the cleaned
comma-joined text. -/
structure Course where
  title : String
  partner : String
  rating : String
  reviews : Nat
  skills : String
  level : String
  type_ : String
  duration : String
  url : String
  plus : String
  degree : String
deriving DecidableEq, Repr

/-- The fixed site origin prepended to relative hrefs. -/
def origin : String := "https://www.coursera.org"

/-- The marker phrase for the degree flag. -/
def degreePhrase : List Char := "Build toward a degree".data

/-- Model of the per-card body of `extractCourseInfo` (src lines 41-108):
each field is computed independently from its own sub-element, with the
documented fallback when the element is missing. -/
def extractCourse (card : Card) : Course :=
  let rating0 := jsTrim (card.ratingText.getD "")
  let reviewsText :=
    match card.ratingText, card.ratingNext with
    | some _, some t =>
      if containsSub "reviews".data (jsToLower t).data then jsTrim t else ""
    | _, _ => ""
  let skills0 : String :=
    match card.skillsP with
    | some t => ⟨replaceOnceEmpty skillsLabelSp (jsTrim t).data⟩
    | none => ""
  let metadata :=
    match card.metadataP with
    | some t => jsTrim t
    | none => ""
  let md := extractMetadata (some metadata)
  { title := jsTrim card.titleText
    partner := jsTrim card.partnerText
    rating := if rating0 = "" then "-" else rating0
    reviews := convertReviewsToNumeric (some reviewsText)
    skills := cleanSkills skills0
    level := md.1
    type_ := md.2.1
    duration := md.2.2
    url :=
      match card.href with
      | some h => if h = "" then "" else origin ++ h
      | none => ""
    plus := if card.hasPlus then "plus" else "-"
    degree :=
      match card.degreeText with
      | some t => if containsSub degreePhrase t.data then "degree" else "-"
      | none => "-" }

/-- Model of `extractCourseInfo` on the card list of a page: one record
per card, in document order. -/
def extractCourseInfo (cards : List Card) : List Course :=
  cards.map extractCourse

/-- The fixed columns of the export, in the order of `fieldnames`. -/
def fixedCols : List String :=
  ["partner", "title", "plus", "level", "type", "duration", "degree", "rating",
   "reviews", "url"]

/-- The skill list of one course as `saveToCsv` consumes it:
`course.skills ? course.skills.split(',').map(s => s.trim()) : []`. -/
def courseSkills (c : Course) : List String :=
  if c.skills = "" then [] else (splitComma c.skills).map jsTrim

/-- JS object update `record[k] = v`: replace the binding in place if the
key exists, else append it. -/
def setKey : List (String × String) → String → String → List (String × String)
  | [], k, v => [(k, v)]
  | (k0, v0) :: rest, k, v =>
    if k0 = k then (k0, v) :: rest else (k0, v0) :: setKey rest k v

/-- JS `delete record[k]`: remove the (unique) binding of `k`. -/
def delKey : List (String × String) → String → List (String × String)
  | [], _ => []
  | (k0, v0) :: rest, k => if k0 = k then rest else (k0, v0) :: delKey rest k

/-- The spread `{ ...course }` as a key-value list, keys in the insertion
order of `extractCourseInfo`; the csv writer stringifies the numeric
`reviews` field in decimal. -/
def baseRecord (c : Course) : List (String × String) :=
  [("title", c.title), ("partner", c.partner), ("rating", c.rating),
   ("reviews", toString c.reviews), ("skills", c.skills), ("level", c.level),
   ("type", c.type_), ("duration", c.duration), ("url", c.url),
   ("plus", c.plus), ("degree", c.degree)]

/-- The value written into the dynamic column `skill`:
`courseSkills.includes(skill) ? skill : ''`. -/
def skillVal (c : Course) (skill : String) : String :=
  if (courseSkills c).contains skill then skill else ""

/-- The export record of one course (src lines 127-136): spread the
course, set one entry per vocabulary skill, then `delete record.skills`. -/
def buildRecord (uniqueSkills : List String) (c : Course) : List (String × String) :=
  delKey
    (uniqueSkills.foldl (fun r skill => setKey r skill (skillVal c skill)) (baseRecord c))
    "skills"

/-- One CSV data row: the csv writer emits, per fieldname, the value the
record holds under that key, and an absent key prints as empty. -/
def rowOf (uniqueSkills : List String) (c : Course) : List String :=
  (fixedCols ++ uniqueSkills).map fun n => ((buildRecord uniqueSkills c).lookup n).getD ""

/-- Outcome of `saveToCsv`: either the no-records early return (a log
message, no file) or the written header and data rows. -/
inductive SaveResult where
  | noRecords
  | saved (header : List String) (rows : List (List String))
deriving DecidableEq, Repr

/-- Model of `saveToCsv` (src lines 115-141). -/
def saveToCsv (courses : List Course) (uniqueSkills : List String) : SaveResult :=
  if courses = [] then .noRecords
  else .saved (fixedCols ++ uniqueSkills) (courses.map (rowOf uniqueSkills))

/-- The skill texts collected by `main` (src lines 170-175): for each
course with truthy `skills`, the comma-split entries, each trimmed. -/
def collectSkills (courses : List Course) : List String :=
  courses.foldl
    (fun acc c => if c.skills = "" then acc else acc ++ (splitComma c.skills).map jsTrim)
    []

/-- JS `Set` insertion order: keep the first occurrence of each value. -/
def dedupKeepFirst (l : List String) : List String :=
  l.foldl (fun acc s => if acc.contains s then acc else acc ++ [s]) []

/-- The default JS `Array.prototype.sort` comparator on strings:
lexicographic comparison of the code units. -/
def charListLe : List Char → List Char → Bool
  | [], _ => true
  | _ :: _, [] => false
  | a :: as, b :: bs =>
    if a.toNat < b.toNat then true
    else if b.toNat < a.toNat then false
    else charListLe as bs

/-- The sort order of the vocabulary columns, as a relation. -/
abbrev lexLe : String → String → Prop := fun a b => charListLe a.data b.data = true

/-- `Array.from(uniqueSkills).sort()` of `main`: deduplicate, then sort
lexicographically. -/
def uniqueSkillsArray (courses : List Course) : List String :=
  List.insertionSort lexLe (dedupKeepFirst (collectSkills courses))

/-- The full export pipeline of `main` after the page is rendered. -/
def runExport (cards : List Card) : SaveResult :=
  let courses := extractCourseInfo cards
  saveToCsv courses (uniqueSkillsArray courses)

/-- States of the content-loader convergence loop. -/
inductive LoadState where
  | LOADING
  | CONVERGED
deriving DecidableEq, Repr

/-- The scroll loop of `main` (src lines 156-163), one comparison per
iteration: `heights i` is the i-th measurement of
`document.body.scrollHeight` (index 0 is the initial measurement), and
`last` is the `lastHeight` variable. The code itself has no bound;
`fuel` is an observation bound of the model: `some i` means the loop
breaks at measurement `i` within `fuel` iterations, `none` means it is
still running after `fuel` iterations. -/
def scrollLoopAux (heights : Nat → Nat) (last i : Nat) : Nat → Option Nat
  | 0 => none
  | fuel + 1 =>
    if heights i = last then some i
    else scrollLoopAux heights (heights i) (i + 1) fuel

/-- The scroll loop started as in the source: `lastHeight` is the initial
measurement and the first comparison uses measurement 1. -/
def scrollLoop (heights : Nat → Nat) (fuel : Nat) : Option Nat :=
  scrollLoopAux heights (heights 0) 1 fuel

/-- The state trace of the scroll loop: one `LOADING` per iteration that
re-enters the loop, one final `CONVERGED` when it breaks. -/
def scrollTraceAux (heights : Nat → Nat) (last i : Nat) : Nat → List LoadState
  | 0 => []
  | fuel + 1 =>
    if heights i = last then [.CONVERGED]
    else .LOADING :: scrollTraceAux heights (heights i) (i + 1) fuel

/-- The trace of the loop from its initial state. -/
def scrollTrace (heights : Nat → Nat) (fuel : Nat) : List LoadState :=
  scrollTraceAux heights (heights 0) 1 fuel

/-- A measurement sequence 100, 200, 200, 200, ...: the simulated extent
sequence of the convergence-loop test. -/
def seqThree : Nat → Nat := fun i => if i = 0 then 100 else 200

/-- A synthetic record whose skill list is `["SQL", "Python"]`. -/
def courseTwoSkills : Course :=
  { title := "T1", partner := "P1", rating := "4.8", reviews := 12000,
    skills := "SQL,Python", level := "", type_ := "", duration := "",
    url := "", plus := "-", degree := "-" }

/-- A synthetic record whose skill list is `["Python"]`. -/
def courseOneSkill : Course :=
  { title := "T2", partner := "P2", rating := "-", reviews := 0,
    skills := "Python", level := "", type_ := "", duration := "",
    url := "", plus := "-", degree := "-" }

/-- A record with a skill literally named `skills`. -/
def courseSkillsNamed : Course :=
  { title := "T", partner := "P", rating := "-", reviews := 0,
    skills := "skills", level := "", type_ := "", duration := "",
    url := "", plus := "-", degree := "-" }

/-- A card whose skills paragraph holds consecutive commas. -/
def cardEmptySkill : Card :=
  { titleText := "", partnerText := "", ratingText := none, ratingNext := none,
    skillsP := some "A,,B", metadataP := none, href := none, hasPlus := false,
    degreeText := none }

/-- A fully populated card, used to instantiate the record-builder
theorems at a concrete input. -/
def cardFull : Card :=
  { titleText := " Data Course ", partnerText := "Acme", ratingText := some "4.8",
    ratingNext := some " 12K Reviews ", skillsP := some "Python, SQL",
    metadataP := some "Beginner Â· Course Â· 4 weeks", href := some "/learn/x",
    hasPlus := true, degreeText := none }

/-! ## Theorems -/

/-- C7: `saveToCsv` on an empty record list reports the no-records
outcome: no header and no rows are written, and the function is total,
so the case is not an error of the pipeline. -/
theorem saveToCsv_empty_noRecords (uniqueSkills : List String) :
    saveToCsv [] uniqueSkills = .noRecords := rfl

/-- C2 counterexample: the source splits on the four-character sequence
space-U+00C2-U+00B7-space, not on the plain middle-dot delimiter, so the
spec example string does not split at all and the whole text lands in
the level component. -/
theorem extractMetadata_middle_dot_counterexample :
    extractMetadata (some "Intermediate · Course · 4 weeks") =
      ("Intermediate · Course · 4 weeks", "", "") ∧
    (("Intermediate · Course · 4 weeks", "", "") : String × String × String) ≠
      ("Intermediate", "Course", "4 weeks") := by decide

/-- C2 (amended): `extractMetadata` splits on the fixed four-character
delimiter space-U+00C2-U+00B7-space (a mojibake rendering of the middle
dot) into up to three parts, each missing part defaulting to the empty
string, and returns three empty strings for absent or empty input. -/
theorem extractMetadata_spec :
    extractMetadata none = ("", "", "") ∧
    extractMetadata (some "") = ("", "", "") ∧
    extractMetadata (some "Intermediate Â· Course Â· 4 weeks") =
      ("Intermediate", "Course", "4 weeks") ∧
    extractMetadata (some "Beginner Â· Specialization") =
      ("Beginner", "Specialization", "") ∧
    extractMetadata (some "Mixed") = ("Mixed", "", "") ∧
    extractMetadata (some "A Â· B Â· C Â· D") = ("A", "B", "C") := by decide

/-- C3: the scroll loop of the code has no iteration cap and no
incomplete-load outcome: on a strictly increasing extent sequence it is
still running after any number of iterations, so no fixed maximum
iteration count bounds it over all height sequences. -/
theorem scrollLoop_unbounded :
    (∀ fuel, scrollLoop (fun i => i) fuel = none) ∧
    ¬ ∃ cap : Nat, ∀ heights : Nat → Nat, (scrollLoop heights cap).isSome = true := by
  have h : ∀ fuel last i, last < i → scrollLoopAux (fun n => n) last i fuel = none := by
    intro fuel
    induction fuel with
    | zero => intro last i _; rfl
    | succ f ih =>
      intro last i hlt
      simp only [scrollLoopAux, ne_of_gt hlt, if_false]
      exact ih i (i + 1) (Nat.lt_succ_self i)
  have h1 : ∀ fuel, scrollLoop (fun i => i) fuel = none := by
    intro fuel
    have := h fuel 0 1 Nat.zero_lt_one
    simpa [scrollLoop] using this
  refine ⟨h1, ?_⟩
  rintro ⟨cap, hcap⟩
  have h2 := hcap (fun i => i)
  rw [h1 cap] at h2
  simp at h2

/-- C6: on the simulated extent sequence 100, 200, 200 the loop
re-enters once (the second measurement differs from the first) and
converges at the third measurement, emitting CONVERGED exactly once. -/
theorem scrollLoop_converges_once (fuel : Nat) (h : 2 ≤ fuel) :
    scrollLoop seqThree fuel = some 2 ∧
    scrollTrace seqThree fuel = [.LOADING, .CONVERGED] ∧
    (scrollTrace seqThree fuel).count .CONVERGED = 1 := by
  obtain ⟨f, rfl⟩ : ∃ f, fuel = f + 2 := ⟨fuel - 2, by omega⟩
  refine ⟨?_, ?_, ?_⟩ <;>
    simp [scrollLoop, scrollLoopAux, scrollTrace, scrollTraceAux, seqThree, List.count_cons]

/-- Witness for C6 at fuel 5. -/
theorem scrollLoop_converges_once_witness :
    2 ≤ 5 ∧
    (scrollLoop seqThree 5 = some 2 ∧
      scrollTrace seqThree 5 = [.LOADING, .CONVERGED] ∧
      (scrollTrace seqThree 5).count .CONVERGED = 1) :=
  ⟨by decide, scrollLoop_converges_once 5 (by decide)⟩

/-- C5 counterexample: on an absent argument the code immediately calls
`startsWith` on `undefined` and throws a TypeError (modelled as `none`),
so the result is not the empty string the claim requires. -/
theorem cleanSkills_undefined_counterexample :
    cleanSkillsJS none = none ∧ cleanSkillsJS none ≠ some "" := by decide

/-- C5 (amended): on every string argument `cleanSkills` is total: it
strips the fixed leading label when the text starts with it, otherwise
leaves the text unchanged, and then trims surrounding whitespace; the
empty string maps to itself. An absent argument, however, makes the code
throw (see the counterexample), so totality holds only for strings. -/
theorem cleanSkills_spec :
    (∀ s : String, (cleanSkillsJS (some s)).isSome = true) ∧
    (∀ s : String, cleanSkillsJS (some ⟨skillsLabel ++ s.data⟩) = some (jsTrim s)) ∧
    (∀ s : String, skillsLabel.isPrefixOf s.data = false →
      cleanSkillsJS (some s) = some (jsTrim s)) ∧
    cleanSkillsJS (some ⟨skillsLabel ++ " Python, SQL".data⟩) = some "Python, SQL" ∧
    cleanSkillsJS (some "  Python  ") = some "Python" ∧
    cleanSkillsJS (some "") = some "" := by
  refine ⟨fun s => rfl, fun s => ?_, fun s hpre => ?_, by decide, by decide, by decide⟩
  · have hp : skillsLabel.isPrefixOf (skillsLabel ++ s.data) = true :=
      List.isPrefixOf_iff_prefix.mpr (List.prefix_append _ _)
    have hd : (skillsLabel ++ s.data).drop skillsLabel.length = s.data :=
      List.drop_left _ _
    simp only [cleanSkillsJS, cleanSkills]
    rw [hp, if_pos rfl, hd]
  · simp only [cleanSkillsJS, cleanSkills, hpre]
    rw [if_neg (by simp)]

/-- Witness for C5 at the trimming example. -/
theorem cleanSkills_spec_witness :
    skillsLabel.isPrefixOf ("  Python  " : String).data = false ∧
    cleanSkillsJS (some "  Python  ") = some (jsTrim "  Python  ") :=
  ⟨by decide, cleanSkills_spec.2.2.1 "  Python  " (by decide)⟩

theorem takeDigits_append (I rest : List Char) (hI : ∀ c ∈ I, c.isDigit = true)
    (hr : ∀ c, rest.head? = some c → c.isDigit = false) :
    takeDigits (I ++ rest) = (I, rest) := by
  induction I with
  | nil =>
    simp only [List.nil_append]
    cases rest with
    | nil => rfl
    | cons c r => simp [takeDigits, hr c rfl]
  | cons c I' ih =>
    have hc : c.isDigit = true := hI c (by simp)
    have ih' := ih fun d hd => hI d (List.mem_cons_of_mem c hd)
    simp [takeDigits, hc, ih']

theorem isEmpty_false_of_ne_nil {l : List Char} (h : l ≠ []) : l.isEmpty = false := by
  cases l with
  | nil => exact absurd rfl h
  | cons c r => rfl

theorem matchKMAt_unit (I tail : List Char) (u : Char) (hne : I ≠ [])
    (hI : ∀ c ∈ I, c.isDigit = true) (hu : u = 'K' ∨ u = 'M') :
    matchKMAt (I ++ u :: tail) = some (I, [], u) := by
  have hud : u.isDigit = false := by rcases hu with rfl | rfl <;> decide
  have ht : takeDigits (I ++ u :: tail) = (I, u :: tail) := by
    refine takeDigits_append I (u :: tail) hI ?_
    intro c hc
    simp only [List.head?_cons, Option.some.injEq] at hc
    exact hc ▸ hud
  have hie := isEmpty_false_of_ne_nil hne
  rcases hu with rfl | rfl <;> simp [matchKMAt, ht, hie]

theorem matchKMAt_frac (I F tail : List Char) (u : Char) (hneI : I ≠ []) (hneF : F ≠ [])
    (hI : ∀ c ∈ I, c.isDigit = true) (hF : ∀ c ∈ F, c.isDigit = true)
    (hu : u = 'K' ∨ u = 'M') :
    matchKMAt (I ++ '.' :: (F ++ u :: tail)) = some (I, F, u) := by
  have hud : u.isDigit = false := by rcases hu with rfl | rfl <;> decide
  have ht : takeDigits (I ++ '.' :: (F ++ u :: tail)) = (I, '.' :: (F ++ u :: tail)) := by
    refine takeDigits_append I _ hI ?_
    intro c hc
    simp only [List.head?_cons, Option.some.injEq] at hc
    exact hc ▸ (by decide : ('.' : Char).isDigit = false)
  have htF : takeDigits (F ++ u :: tail) = (F, u :: tail) := by
    refine takeDigits_append F (u :: tail) hF ?_
    intro c hc
    simp only [List.head?_cons, Option.some.injEq] at hc
    exact hc ▸ hud
  have hieI := isEmpty_false_of_ne_nil hneI
  have hieF := isEmpty_false_of_ne_nil hneF
  rcases hu with rfl | rfl <;> simp [matchKMAt, ht, htF, hieI, hieF]

theorem findKM_of_matchAt (l : List Char) (m : List Char × List Char × Char)
    (hl : l ≠ []) (h : matchKMAt l = some m) : findKM l = some m := by
  cases l with
  | nil => exact absurd rfl hl
  | cons c rest => simp [findKM, h]

theorem mk_ne_empty {l : List Char} (h : l ≠ []) : (⟨l⟩ : String) ≠ "" := by
  intro e
  exact h (congrArg String.data e)

theorem findKM_none_of_digits (l : List Char) (h : ∀ c ∈ l, c.isDigit = true) :
    findKM l = none := by
  induction l with
  | nil => rfl
  | cons c rest ih =>
    have ht : takeDigits (c :: rest) = (c :: rest, []) := by
      have := takeDigits_append (c :: rest) [] h (by intro d hd; simp at hd)
      simpa using this
    have hm : matchKMAt (c :: rest) = none := by simp [matchKMAt, ht]
    simp [findKM, hm, ih fun d hd => h d (List.mem_cons_of_mem c hd)]

theorem findKM_none_of_nodigits (l : List Char) (h : ∀ c ∈ l, c.isDigit = false) :
    findKM l = none := by
  induction l with
  | nil => rfl
  | cons c rest ih =>
    have ht : takeDigits (c :: rest) = ([], c :: rest) := by
      simp [takeDigits, h c (by simp)]
    have hm : matchKMAt (c :: rest) = none := by simp [matchKMAt, ht]
    simp [findKM, hm, ih fun d hd => h d (List.mem_cons_of_mem c hd)]

theorem firstDigits_none_of_nodigits (l : List Char) (h : ∀ c ∈ l, c.isDigit = false) :
    firstDigits l = none := by
  induction l with
  | nil => rfl
  | cons c rest ih =>
    simp [firstDigits, h c (by simp), ih fun d hd => h d (List.mem_cons_of_mem c hd)]

theorem FPconvert_unit (I : List Char) (u : Char) (hne : I ≠ [])
    (hI : ∀ c ∈ I, c.isDigit = true) (hu : u = 'K' ∨ u = 'M') :
    convertReviewsToNumericFP (some ⟨I ++ [u]⟩) =
      floorD (mulD (parseFloatD I []) (if u = 'K' then 1000 else 1000000)) := by
  have hm : matchKMAt (I ++ [u]) = some (I, [], u) := matchKMAt_unit I [] u hne hI hu
  have hf : findKM (I ++ [u]) = some (I, [], u) :=
    findKM_of_matchAt _ _ (by simp [hne]) hm
  have hs : (⟨I ++ [u]⟩ : String) ≠ "" := mk_ne_empty (by simp)
  simp [convertReviewsToNumericFP, hs, hf]

theorem FPconvert_frac (I F : List Char) (u : Char) (hneI : I ≠ []) (hneF : F ≠ [])
    (hI : ∀ c ∈ I, c.isDigit = true) (hF : ∀ c ∈ F, c.isDigit = true)
    (hu : u = 'K' ∨ u = 'M') :
    convertReviewsToNumericFP (some ⟨I ++ '.' :: (F ++ [u])⟩) =
      floorD (mulD (parseFloatD I F) (if u = 'K' then 1000 else 1000000)) := by
  have hm : matchKMAt (I ++ '.' :: (F ++ [u])) = some (I, F, u) :=
    matchKMAt_frac I F [] u hneI hneF hI hF hu
  have hf : findKM (I ++ '.' :: (F ++ [u])) = some (I, F, u) :=
    findKM_of_matchAt _ _ (by simp [hneI]) hm
  have hs : (⟨I ++ '.' :: (F ++ [u])⟩ : String) ≠ "" := mk_ne_empty (by simp)
  simp [convertReviewsToNumericFP, hs, hf]

theorem FPconvert_all_digits (s : String) (hne : s.data ≠ [])
    (h : ∀ c ∈ s.data, c.isDigit = true) :
    convertReviewsToNumericFP (some s) = floorD (parseIntD s.data) := by
  have hs : s ≠ "" := by
    intro e
    exact hne (by rw [e])
  have hfd : firstDigits s.data = some s.data := by
    cases hd : s.data with
    | nil => exact absurd hd hne
    | cons c rest =>
      have ht : takeDigits (c :: rest) = (c :: rest, []) := by
        have := takeDigits_append (c :: rest) [] (hd ▸ h) (by intro d hdd; simp at hdd)
        simpa using this
      simp [firstDigits, h c (by simp [hd]), ht]
  simp [convertReviewsToNumericFP, hs, findKM_none_of_digits s.data h, hfd]

/-- C4 counterexample: the source computes in binary64 doubles, so the
exact truncation-after-scaling of the claim fails: for `1.001K` the
exact rule demands floor(1.001 * 1000) = 1001, but the program computes
1000 (parseFloat rounds 1.001 just below it, and the rounded product
falls below 1001); and the digit-run fallback is not exact either:
parseInt rounds 9007199254740993, which exceeds 2 ^ 53, to
9007199254740992. -/
theorem convertReviews_double_counterexample :
    convertReviewsToNumericFP (some "1.001K") = some 1000 ∧
    natOfDigits ['1', '0', '0', '1'] * 1000 / 10 ^ 3 = 1001 ∧
    (1000 : Nat) ≠ 1001 ∧
    convertReviewsToNumericFP (some "9007199254740993") = some 9007199254740992 ∧
    natOfDigits ("9007199254740993".data) = 9007199254740993 ∧
    (9007199254740992 : Nat) ≠ 9007199254740993 := by decide

/-- C4 (amended): `convertReviewsToNumeric` never raises (the model is a
total function into JS numbers): a digit run with a case-sensitive `K`
suffix is parseFloat-ed and scaled by 1000, and by 1000000 for `M`, in
IEEE-754 binary64 arithmetic — the decimal literal is rounded to the
nearest double, the product is rounded again, then floored — which can
land one below the exact truncation; a text with no suffixed match
falls back to the value of `parseInt` on its first digit run, exact
only below 2 ^ 53; a text with no digits at all yields 0; and the
concrete spec examples hold, a lowercase `k` being ignored by the
case-sensitive suffix match. -/
theorem convertReviewsToNumericFP_spec :
    (∀ I : List Char, I ≠ [] → (∀ c ∈ I, c.isDigit = true) →
      convertReviewsToNumericFP (some ⟨I ++ ['K']⟩) =
        floorD (mulD (parseFloatD I []) 1000) ∧
      convertReviewsToNumericFP (some ⟨I ++ ['M']⟩) =
        floorD (mulD (parseFloatD I []) 1000000)) ∧
    (∀ I F : List Char, I ≠ [] → F ≠ [] →
      (∀ c ∈ I, c.isDigit = true) → (∀ c ∈ F, c.isDigit = true) →
      convertReviewsToNumericFP (some ⟨I ++ '.' :: (F ++ ['K'])⟩) =
        floorD (mulD (parseFloatD I F) 1000) ∧
      convertReviewsToNumericFP (some ⟨I ++ '.' :: (F ++ ['M'])⟩) =
        floorD (mulD (parseFloatD I F) 1000000)) ∧
    (∀ s : String, s.data ≠ [] → (∀ c ∈ s.data, c.isDigit = true) →
      convertReviewsToNumericFP (some s) = floorD (parseIntD s.data)) ∧
    (∀ s : String, (∀ c ∈ s.data, c.isDigit = false) →
      convertReviewsToNumericFP (some s) = some 0) ∧
    convertReviewsToNumericFP (some "12K") = some 12000 ∧
    convertReviewsToNumericFP (some "1.2M") = some 1200000 ∧
    convertReviewsToNumericFP (some "457") = some 457 ∧
    convertReviewsToNumericFP (some "12k") = some 12 ∧
    convertReviewsToNumericFP (some "") = some 0 ∧
    convertReviewsToNumericFP none = some 0 ∧
    convertReviewsToNumericFP (some "1.001K") = some 1000 ∧
    convertReviewsToNumericFP (some "9007199254740993") = some 9007199254740992 := by
  refine ⟨?_, ?_, FPconvert_all_digits, ?_, by decide, by decide, by decide, by decide,
    rfl, rfl, by decide, by decide⟩
  · intro I hne hI
    exact ⟨by simpa using FPconvert_unit I 'K' hne hI (Or.inl rfl),
      by simpa using FPconvert_unit I 'M' hne hI (Or.inr rfl)⟩
  · intro I F hneI hneF hI hF
    exact ⟨by simpa using FPconvert_frac I F 'K' hneI hneF hI hF (Or.inl rfl),
      by simpa using FPconvert_frac I F 'M' hneI hneF hI hF (Or.inr rfl)⟩
  · intro s h
    by_cases hs : s = ""
    · rw [hs]; rfl
    · simp [convertReviewsToNumericFP, hs, findKM_none_of_nodigits s.data h,
        firstDigits_none_of_nodigits s.data h]

/-- Witness for C4 at the digit run 45 with suffix K. -/
theorem convertReviewsToNumericFP_spec_witness :
    (['4', '5'] : List Char) ≠ [] ∧ (∀ c ∈ (['4', '5'] : List Char), c.isDigit = true) ∧
    convertReviewsToNumericFP (some ⟨['4', '5'] ++ ['K']⟩) =
      floorD (mulD (parseFloatD ['4', '5'] []) 1000) :=
  ⟨by decide, by decide,
    (convertReviewsToNumericFP_spec.1 ['4', '5'] (by decide) (by decide)).1⟩

theorem lookup_setKey (r : List (String × String)) (k v n : String) :
    (setKey r k v).lookup n = if n = k then some v else r.lookup n := by
  induction r with
  | nil =>
    by_cases h : n = k
    · subst h; simp [setKey, List.lookup]
    · have hb : (n == k) = false := beq_eq_false_iff_ne.mpr h
      simp [setKey, List.lookup, h, hb]
  | cons hd rest ih =>
    obtain ⟨k0, v0⟩ := hd
    by_cases h0 : k0 = k
    · subst h0
      by_cases h : n = k0
      · subst h; simp [setKey, List.lookup]
      · have hb : (n == k0) = false := beq_eq_false_iff_ne.mpr h
        simp [setKey, List.lookup, h, hb]
    · by_cases h : n = k0
      · subst h
        simp [setKey, List.lookup, h0]
      · have hb : (n == k0) = false := beq_eq_false_iff_ne.mpr h
        simp [setKey, List.lookup, h0, hb, ih]

theorem lookup_delKey_ne (r : List (String × String)) (k n : String) (h : n ≠ k) :
    (delKey r k).lookup n = r.lookup n := by
  induction r with
  | nil => rfl
  | cons hd rest ih =>
    obtain ⟨k0, v0⟩ := hd
    by_cases h0 : k0 = k
    · subst h0
      have hb : (n == k0) = false := beq_eq_false_iff_ne.mpr h
      simp [delKey, List.lookup, hb]
    · by_cases hn : n = k0
      · subst hn
        simp [delKey, List.lookup, h0]
      · have hb : (n == k0) = false := beq_eq_false_iff_ne.mpr hn
        simp [delKey, List.lookup, h0, hb, ih]

theorem lookup_foldl_setKey (f : String → String) (l : List String)
    (r : List (String × String)) (n : String) :
    (l.foldl (fun r s => setKey r s (f s)) r).lookup n =
      if n ∈ l then some (f n) else r.lookup n := by
  induction l generalizing r with
  | nil => simp
  | cons s l ih =>
    simp only [List.foldl_cons]
    rw [ih]
    by_cases hl : n ∈ l
    · simp [hl]
    · by_cases hs : n = s
      · subst hs
        simp [hl, lookup_setKey]
      · simp [hl, hs, lookup_setKey]

theorem lookup_buildRecord (uniqueSkills : List String) (c : Course) (n : String)
    (hn : n ≠ "skills") :
    (buildRecord uniqueSkills c).lookup n =
      if n ∈ uniqueSkills then some (skillVal c n) else (baseRecord c).lookup n := by
  unfold buildRecord
  rw [lookup_delKey_ne _ _ _ hn, lookup_foldl_setKey (skillVal c)]

theorem mem_dedupKeepFirst (s : String) (l : List String) :
    s ∈ dedupKeepFirst l ↔ s ∈ l := by
  have key : ∀ acc : List String,
      s ∈ l.foldl (fun acc t => if acc.contains t then acc else acc ++ [t]) acc ↔
        s ∈ acc ∨ s ∈ l := by
    induction l with
    | nil => intro acc; simp
    | cons t l ih =>
      intro acc
      simp only [List.foldl_cons]
      rw [ih]
      by_cases h : acc.contains t = true
      · have ht : t ∈ acc := by simpa using h
        rw [if_pos h]
        simp only [List.mem_cons]
        constructor
        · rintro (ha | hl)
          · exact Or.inl ha
          · exact Or.inr (Or.inr hl)
        · rintro (ha | rfl | hl)
          · exact Or.inl ha
          · exact Or.inl ht
          · exact Or.inr hl
      · rw [if_neg h]
        simp only [List.mem_append, List.mem_singleton, List.mem_cons]
        tauto
  have := key []
  simpa [dedupKeepFirst] using this

theorem mem_collectSkills (s : String) (courses : List Course) :
    s ∈ collectSkills courses ↔ ∃ c ∈ courses, s ∈ courseSkills c := by
  have key : ∀ acc : List String,
      s ∈ courses.foldl
          (fun acc c =>
            if c.skills = "" then acc else acc ++ (splitComma c.skills).map jsTrim)
          acc ↔
        s ∈ acc ∨ ∃ c ∈ courses, s ∈ courseSkills c := by
    induction courses with
    | nil => intro acc; simp
    | cons c cs ih =>
      intro acc
      simp only [List.foldl_cons]
      rw [ih]
      by_cases h : c.skills = ""
      · simp [h, courseSkills]
      · simp only [h, if_false, List.mem_append, List.mem_cons]
        have : courseSkills c = (splitComma c.skills).map jsTrim := by
          simp [courseSkills, h]
        rw [← this]
        constructor
        · rintro ((ha | hm) | ⟨d, hd, hm⟩)
          · exact Or.inl ha
          · exact Or.inr ⟨c, Or.inl rfl, hm⟩
          · exact Or.inr ⟨d, Or.inr hd, hm⟩
        · rintro (ha | ⟨d, (rfl | hd), hm⟩)
          · exact Or.inl (Or.inl ha)
          · exact Or.inl (Or.inr hm)
          · exact Or.inr ⟨d, hd, hm⟩
  have := key []
  simpa [collectSkills] using this

theorem mem_uniqueSkillsArray (s : String) (courses : List Course) :
    s ∈ uniqueSkillsArray courses ↔ ∃ c ∈ courses, s ∈ courseSkills c := by
  rw [uniqueSkillsArray, List.mem_insertionSort, mem_dedupKeepFirst, mem_collectSkills]

theorem charListLe_total : ∀ a b : List Char,
    charListLe a b = true ∨ charListLe b a = true := by
  intro a
  induction a with
  | nil => intro b; left; rfl
  | cons x as ih =>
    intro b
    cases b with
    | nil => right; rfl
    | cons y bs =>
      by_cases h1 : x.toNat < y.toNat
      · left; simp [charListLe, h1]
      · by_cases h2 : y.toNat < x.toNat
        · right; simp [charListLe, h2]
        · rcases ih bs with h | h
          · left; simp [charListLe, h1, h2, h]
          · right; simp [charListLe, h1, h2, h]

theorem charListLe_trans : ∀ a b c : List Char,
    charListLe a b = true → charListLe b c = true → charListLe a c = true := by
  intro a
  induction a with
  | nil => intro b c _ _; rfl
  | cons x as ih =>
    intro b c hab hbc
    cases b with
    | nil => simp [charListLe] at hab
    | cons y bs =>
      cases c with
      | nil => simp [charListLe] at hbc
      | cons z cs =>
        simp only [charListLe] at hab hbc ⊢
        by_cases h1 : x.toNat < y.toNat
        · by_cases h2 : y.toNat < z.toNat
          · simp [show x.toNat < z.toNat by omega]
          · by_cases h3 : z.toNat < y.toNat
            · rw [if_neg h2, if_pos h3] at hbc
              exact absurd hbc (by simp)
            · simp [show x.toNat < z.toNat by omega]
        · by_cases h4 : y.toNat < x.toNat
          · rw [if_neg h1, if_pos h4] at hab
            exact absurd hab (by simp)
          · rw [if_neg h1, if_neg h4] at hab
            by_cases h2 : y.toNat < z.toNat
            · simp [show x.toNat < z.toNat by omega]
            · by_cases h3 : z.toNat < y.toNat
              · rw [if_neg h2, if_pos h3] at hbc
                exact absurd hbc (by simp)
              · rw [if_neg h2, if_neg h3] at hbc
                have hrec := ih bs cs hab hbc
                rw [if_neg (show ¬ x.toNat < z.toNat by omega),
                  if_neg (show ¬ z.toNat < x.toNat by omega)]
                exact hrec

theorem sorted_uniqueSkillsArray (courses : List Course) :
    List.Sorted lexLe (uniqueSkillsArray courses) := by
  haveI : IsTotal String lexLe := ⟨fun a b => charListLe_total a.data b.data⟩
  haveI : IsTrans String lexLe := ⟨fun a b c => charListLe_trans a.data b.data c.data⟩
  exact List.sorted_insertionSort lexLe _

/-- C1 counterexample: for the single record whose skill list is
`["skills"]` the sorted vocabulary is `["skills"]`, but `delete
record.skills` runs after the dynamic columns are filled, so the
vocabulary column holds the empty string in the exported row although
the skill is in the record's list — not the skill's own name as the
claim requires for every vocabulary entry. -/
theorem saveToCsv_skills_column_counterexample :
    uniqueSkillsArray [courseSkillsNamed] = ["skills"] ∧
    "skills" ∈ courseSkills courseSkillsNamed ∧
    saveToCsv [courseSkillsNamed] ["skills"] =
      .saved (fixedCols ++ ["skills"])
        [["P", "T", "-", "", "", "", "-", "-", "0", "", ""]] ∧
    (rowOf ["skills"] courseSkillsNamed).getD 10 "?" = "" := by decide

/-- C1 (amended): provided no vocabulary entry is the literal string
`skills`, the exporter emits the header of the ten fixed columns
followed by the deduplicated vocabulary sorted lexicographically (whose
entries are exactly the skills of the records), and one row per record
in which the skills field is dropped and each vocabulary column holds
that skill's own name when the skill is in the record's skill list and
the empty string otherwise. (A vocabulary entry literally named
`skills` is erased by `delete record.skills`, see the counterexample.) -/
theorem saveToCsv_export_spec (courses : List Course) (hne : courses ≠ [])
    (hsk : "skills" ∉ uniqueSkillsArray courses) :
    List.Sorted lexLe (uniqueSkillsArray courses) ∧
    (∀ s, s ∈ uniqueSkillsArray courses ↔ ∃ c ∈ courses, s ∈ courseSkills c) ∧
    "skills" ∉ fixedCols ++ uniqueSkillsArray courses ∧
    saveToCsv courses (uniqueSkillsArray courses) =
      .saved (fixedCols ++ uniqueSkillsArray courses)
        (courses.map fun c =>
          (fixedCols.map fun n =>
            ((buildRecord (uniqueSkillsArray courses) c).lookup n).getD "")
            ++ (uniqueSkillsArray courses).map fun v =>
                if v ∈ courseSkills c then v else "") := by
  refine ⟨sorted_uniqueSkillsArray courses, fun s => mem_uniqueSkillsArray s courses, ?_, ?_⟩
  · simp only [List.mem_append, not_or]
    exact ⟨by decide, hsk⟩
  · simp only [saveToCsv, if_neg hne]
    congr 1
    refine List.map_congr_left ?_
    intro c _
    rw [rowOf, List.map_append]
    congr 1
    refine List.map_congr_left ?_
    intro v hv
    have hvne : v ≠ "skills" := fun h => hsk (h ▸ hv)
    rw [lookup_buildRecord _ _ _ hvne, if_pos hv]
    by_cases hm : v ∈ courseSkills c <;> simp [skillVal, hm]

/-- Witness for C1 at the two synthetic records of the spec example. -/
theorem saveToCsv_export_spec_witness :
    ([courseTwoSkills, courseOneSkill] : List Course) ≠ [] ∧
    "skills" ∉ uniqueSkillsArray [courseTwoSkills, courseOneSkill] ∧
    (List.Sorted lexLe (uniqueSkillsArray [courseTwoSkills, courseOneSkill]) ∧
      (∀ s, s ∈ uniqueSkillsArray [courseTwoSkills, courseOneSkill] ↔
        ∃ c ∈ [courseTwoSkills, courseOneSkill], s ∈ courseSkills c) ∧
      "skills" ∉ fixedCols ++ uniqueSkillsArray [courseTwoSkills, courseOneSkill] ∧
      saveToCsv [courseTwoSkills, courseOneSkill]
          (uniqueSkillsArray [courseTwoSkills, courseOneSkill]) =
        .saved (fixedCols ++ uniqueSkillsArray [courseTwoSkills, courseOneSkill])
          ([courseTwoSkills, courseOneSkill].map fun c =>
            (fixedCols.map fun n =>
              ((buildRecord (uniqueSkillsArray [courseTwoSkills, courseOneSkill]) c).lookup
                  n).getD "")
              ++ (uniqueSkillsArray [courseTwoSkills, courseOneSkill]).map fun v =>
                  if v ∈ courseSkills c then v else "")) :=
  ⟨by decide, by decide,
    saveToCsv_export_spec [courseTwoSkills, courseOneSkill] (by decide) (by decide)⟩

/-- C10: a vocabulary entry that collides with a fixed column name
overwrites that column's record value with the skill-or-empty value, so
the original field value is not preserved; when the vocabulary is
disjoint from the fixed names, the ten fixed cells of the row are the
record's own fields, in the fieldname order. -/
theorem exportRow_fixed_columns (vocab : List String) (c : Course) :
    (∀ n ∈ fixedCols, n ∈ vocab →
      ((buildRecord vocab c).lookup n).getD "" = (if n ∈ courseSkills c then n else "")) ∧
    ((∀ v ∈ vocab, v ∉ fixedCols) →
      (rowOf vocab c).take 10 =
        [c.partner, c.title, c.plus, c.level, c.type_, c.duration, c.degree, c.rating,
         toString c.reviews, c.url]) := by
  constructor
  · intro n hn hv
    have hns : n ≠ "skills" := by
      fin_cases hn <;> decide
    rw [lookup_buildRecord _ _ _ hns, if_pos hv]
    by_cases hm : n ∈ courseSkills c <;> simp [skillVal, hm]
  · intro hdisj
    have key : ∀ n, n ∈ fixedCols →
        (buildRecord vocab c).lookup n = (baseRecord c).lookup n := by
      intro n hn
      have hns : n ≠ "skills" := by
        fin_cases hn <;> decide
      have hnv : n ∉ vocab := fun hv => hdisj n hv hn
      rw [lookup_buildRecord _ _ _ hns, if_neg hnv]
    rw [rowOf, List.map_append]
    have hlen :
        ((fixedCols).map fun n => ((buildRecord vocab c).lookup n).getD "").length = 10 := by
      simp [fixedCols]
    rw [← hlen, List.take_left]
    simp only [fixedCols, List.map_cons, List.map_nil]
    rw [key "partner" (by decide), key "title" (by decide), key "plus" (by decide),
      key "level" (by decide), key "type" (by decide), key "duration" (by decide),
      key "degree" (by decide), key "rating" (by decide), key "reviews" (by decide),
      key "url" (by decide)]
    rfl

/-- Witness for C10: a skill named `title` overwrites the title column. -/
theorem exportRow_fixed_columns_witness :
    ("title" ∈ fixedCols) ∧ ("title" ∈ (["title"] : List String)) ∧
    ((buildRecord ["title"] courseTwoSkills).lookup "title").getD "" =
      (if "title" ∈ courseSkills courseTwoSkills then "title" else "") :=
  ⟨by decide, by decide,
    (exportRow_fixed_columns ["title"] courseTwoSkills).1 "title" (by decide) (by decide)⟩

/-- C8: each record field degrades independently: a missing rating
element (or blank rating text) yields the `-` sentinel; the review count
is taken from the adjacent sibling only when the rating element exists
and the sibling text contains `reviews` case-insensitively, and
otherwise the reviews text stays empty and parses to 0; and the rating
and title values depend only on their own sub-elements, so a missing
element degrades only its own field and never aborts the record. -/
theorem extractCourse_fields_independent (card : Card) :
    (card.ratingText = none → (extractCourse card).rating = "-") ∧
    (∀ t, card.ratingText = some t → jsTrim t = "" → (extractCourse card).rating = "-") ∧
    (∀ r t, card.ratingText = some r → card.ratingNext = some t →
      containsSub "reviews".data (jsToLower t).data = true →
      (extractCourse card).reviews = convertReviewsToNumeric (some (jsTrim t))) ∧
    (∀ r t, card.ratingText = some r → card.ratingNext = some t →
      containsSub "reviews".data (jsToLower t).data = false →
      (extractCourse card).reviews = 0) ∧
    (card.ratingNext = none → (extractCourse card).reviews = 0) ∧
    (card.ratingText = none → (extractCourse card).reviews = 0) ∧
    (∀ card' : Card, card'.ratingText = card.ratingText →
      (extractCourse card').rating = (extractCourse card).rating) ∧
    (∀ card' : Card, card'.titleText = card.titleText →
      (extractCourse card').title = (extractCourse card).title) := by
  refine ⟨?_, ?_, ?_, ?_, ?_, ?_, ?_, ?_⟩
  · intro h
    simp [extractCourse, h, show jsTrim "" = "" from rfl]
  · intro t h htrim
    simp [extractCourse, h, htrim]
  · intro r t hr ht hc
    simp [extractCourse, hr, ht, hc]
  · intro r t hr ht hc
    simp [extractCourse, hr, ht, hc, show convertReviewsToNumeric (some "") = 0 from rfl]
  · intro h
    cases hr : card.ratingText <;>
      simp [extractCourse, h, hr, show convertReviewsToNumeric (some "") = 0 from rfl]
  · intro h
    simp [extractCourse, h, show convertReviewsToNumeric (some "") = 0 from rfl]
  · intro card' h
    simp [extractCourse, h]
  · intro card' h
    simp [extractCourse, h]

/-- Witness for C8 at a populated card with a reviews sibling. -/
theorem extractCourse_fields_independent_witness :
    cardFull.ratingText = some "4.8" ∧ cardFull.ratingNext = some " 12K Reviews " ∧
    containsSub "reviews".data (jsToLower " 12K Reviews ").data = true ∧
    (extractCourse cardFull).reviews = convertReviewsToNumeric (some (jsTrim " 12K Reviews ")) :=
  ⟨rfl, rfl, by decide,
    (extractCourse_fields_independent cardFull).2.2.1 "4.8" " 12K Reviews " rfl rfl (by decide)⟩

theorem head_dropWhile_false (p : Char → Bool) (l : List Char) (c : Char)
    (h : (l.dropWhile p).head? = some c) : p c = false := by
  have hm := List.head?_dropWhile_not p l
  rw [h] at hm
  exact hm

theorem dropWhile_eq_self_of_head (p : Char → Bool) (l : List Char)
    (h : ∀ c, l.head? = some c → p c = false) : l.dropWhile p = l := by
  cases l with
  | nil => rfl
  | cons c rest => rw [List.dropWhile_cons, if_neg (by simp [h c rfl])]

theorem trimList_idem (l : List Char) : trimList (trimList l) = trimList l := by
  set A := l.dropWhile jsWs with hA
  set C := A.reverse.dropWhile jsWs with hC
  have hAh : ∀ c, A.head? = some c → jsWs c = false := fun c hc =>
    head_dropWhile_false _ _ _ (hA ▸ hc)
  have hpre : C.reverse <+: A := by
    have hsfx : C <:+ A.reverse := hC ▸ List.dropWhile_suffix jsWs
    have h2 : (C.reverse).reverse <:+ A.reverse := by simpa using hsfx
    have h3 := List.reverse_suffix.mp h2
    simpa using h3
  have hCrh : ∀ c, (C.reverse).head? = some c → jsWs c = false := by
    intro c hc
    rcases hpre with ⟨t, ht⟩
    have hhd : A.head? = some c := by
      rw [← ht]
      cases hrc : C.reverse with
      | nil => rw [hrc] at hc; simp at hc
      | cons d r =>
        rw [hrc] at hc
        simp only [List.head?_cons, Option.some.injEq] at hc
        subst hc
        rfl
    exact hAh c hhd
  show trimList (C.reverse) = C.reverse
  rw [trimList, dropWhile_eq_self_of_head _ _ hCrh, List.reverse_reverse, hC,
    List.dropWhile_idempotent]

theorem jsTrim_idem (s : String) : jsTrim (jsTrim s) = jsTrim s := by
  show (⟨trimList (trimList s.data)⟩ : String) = ⟨trimList s.data⟩
  rw [trimList_idem]

/-- C9 counterexample: a card whose skills paragraph holds consecutive
commas produces a record whose consumed skill list has an empty entry,
and the empty string even enters the vocabulary, so not every skill
entry of an extracted record is non-empty. -/
theorem course_invariants_counterexample :
    (extractCourse cardEmptySkill).skills = "A,,B" ∧
    "" ∈ courseSkills (extractCourse cardEmptySkill) ∧
    "" ∈ uniqueSkillsArray [extractCourse cardEmptySkill] := by decide

/-- C9 (amended): for every record produced by an extraction pass, the
skill entries consumed by the exporter and by the vocabulary builder are
trimmed (they may however be empty, see the counterexample), the review
count is a natural number and hence never negative, and the url is
either empty or the fixed origin followed by a nonempty href. -/
theorem course_invariants (cards : List Card) :
    (∀ c ∈ extractCourseInfo cards, ∀ s ∈ courseSkills c, jsTrim s = s) ∧
    (∀ s ∈ uniqueSkillsArray (extractCourseInfo cards), jsTrim s = s) ∧
    (∀ card ∈ cards, 0 ≤ (extractCourse card).reviews) ∧
    (∀ card ∈ cards, (extractCourse card).url = "" ∨
      ∃ h, h ≠ "" ∧ (extractCourse card).url = origin ++ h) := by
  have hskills : ∀ c : Course, ∀ s ∈ courseSkills c, jsTrim s = s := by
    intro c s hs
    rw [courseSkills] at hs
    by_cases h : c.skills = ""
    · rw [if_pos h] at hs
      simp at hs
    · rw [if_neg h] at hs
      obtain ⟨x, _, rfl⟩ := List.mem_map.mp hs
      exact jsTrim_idem x
  refine ⟨fun c _ s hs => hskills c s hs, ?_, fun card _ => Nat.zero_le _, ?_⟩
  · intro s hs
    rw [mem_uniqueSkillsArray] at hs
    obtain ⟨c, _, hsc⟩ := hs
    exact hskills c s hsc
  · intro card _
    cases hh : card.href with
    | none => left; simp [extractCourse, hh]
    | some h =>
      by_cases he : h = ""
      · left; simp [extractCourse, hh, he]
      · right; exact ⟨h, he, by simp [extractCourse, hh, he]⟩

/-- Witness for C9 at a populated card with a relative href. -/
theorem course_invariants_witness :
    cardFull ∈ [cardFull] ∧
    ((extractCourse cardFull).url = "" ∨
      ∃ h, h ≠ "" ∧ (extractCourse cardFull).url = origin ++ h) :=
  ⟨by decide, (course_invariants [cardFull]).2.2.2 cardFull (by decide)⟩

/-- Witness for C7 at a concrete vocabulary. -/
theorem saveToCsv_empty_noRecords_witness :
    saveToCsv [] ["Python"] = .noRecords :=
  saveToCsv_empty_noRecords ["Python"]

end Scraper
